import Mathlib

/-!
Verification of the NexusPrint template-resolution engine.

This file gives a shallow embedding of the algorithmic core of the
repository: the currency-to-words converters (English, Traditional
Chinese), the locale-formatted numeral renderer, the date formatter, the
per-field value-resolution pipeline, and the undo/redo history manager,
all translated directly from the TypeScript source.  Machine floats do
not occur: amounts are represented by the pair (integer part, cents)
produced by `parseFloat` + `toFixed(2)`, with `none` standing for `NaN`.
-/

namespace NexusPrint

/-! ## Amount parsing

JS `parseFloat(x.toString())` followed by `num.toFixed(2)` is modelled by
`parseFix2`, which maps a string to `none` (the `NaN` case) or to
`some (integerPart, cents)` with `cents < 100`.  The model is exact for
unsigned decimal literals (with arbitrary trailing junk, as `parseFloat`
prefix-parses); signed, exponent and whitespace forms are outside the
embedded domain, and rounding of a third fraction digit is taken half-up.
-/

def digitVal (c : Char) : Nat := c.toNat - 48

/-- JS `String.prototype.trim` on the space-separated words produced by
the converters (kernel-reducible, unlike `String.trim`). -/
def jsTrim (s : String) : String :=
  String.mk (((s.toList.dropWhile (· = ' ')).reverse.dropWhile (· = ' ')).reverse)

def digitsToNat (ds : List Nat) : Nat := ds.foldl (fun a d => a * 10 + d) 0

def parseFix2 (s : String) : Option (Nat × Nat) :=
  let cs := s.toList
  let intDs := cs.takeWhile Char.isDigit
  let rest := cs.dropWhile Char.isDigit
  match rest with
  | '.' :: rest2 =>
    let fracDs := rest2.takeWhile Char.isDigit
    if intDs = [] ∧ fracDs = [] then none
    else
      let ip := digitsToNat (intDs.map digitVal)
      let f := fracDs.map digitVal
      let cents0 := (f.getD 0 0) * 10 + f.getD 1 0
      let cents := if 5 ≤ f.getD 2 0 then cents0 + 1 else cents0
      if cents = 100 then some (ip + 1, 0) else some (ip, cents)
  | _ =>
    if intDs = [] then none else some (digitsToNat (intDs.map digitVal), 0)

/-! ## English currency converter (`numberToEnglish`) -/

def ONES : List String :=
  ["", "One", "Two", "Three", "Four", "Five", "Six", "Seven", "Eight", "Nine"]

def TEENS : List String :=
  ["Ten", "Eleven", "Twelve", "Thirteen", "Fourteen", "Fifteen", "Sixteen",
   "Seventeen", "Eighteen", "Nineteen"]

def TENS : List String :=
  ["", "", "Twenty", "Thirty", "Forty", "Fifty", "Sixty", "Seventy",
   "Eighty", "Ninety"]

/-- The three-digit group-to-words routine (`convertGroup` in the source):
hundreds digit, then tens, then teens, then ones, trimmed at the end. -/
def convertGroup (n : Nat) : String :=
  let s1 := if n ≥ 100 then (ONES.getD (n / 100) "") ++ " Hundred " else ""
  let n1 := if n ≥ 100 then n % 100 else n
  let s2 := if n1 ≥ 20 then s1 ++ (TENS.getD (n1 / 10) "") ++ " " else s1
  let n2 := if n1 ≥ 20 then n1 % 10 else n1
  let s3 := if n2 ≥ 10 then s2 ++ (TEENS.getD (n2 - 10) "") ++ " " else s2
  let n3 := if n2 ≥ 10 then 0 else n2
  let s4 := if n3 > 0 then s3 ++ (ONES.getD n3 "") ++ " " else s3
  jsTrim s4

/-- `numberToEnglish` from the source, on the parse result: `none` is the
`NaN` branch, `some (ip, cents)` the value fixed to two decimals. -/
def numberToEnglish (amount : Option (Nat × Nat)) : String :=
  match amount with
  | none => "Zero Dollars Only"
  | some (ip, cents) =>
    if ip = 0 ∧ cents = 0 then "Zero Dollars Only"
    else
      let r1 := if ip ≥ 1000000000 then convertGroup (ip / 1000000000) ++ " Billion " else ""
      let ip1 := if ip ≥ 1000000000 then ip % 1000000000 else ip
      let r2 := if ip1 ≥ 1000000 then r1 ++ convertGroup (ip1 / 1000000) ++ " Million " else r1
      let ip2 := if ip1 ≥ 1000000 then ip1 % 1000000 else ip1
      let r3 := if ip2 ≥ 1000 then r2 ++ convertGroup (ip2 / 1000) ++ " Thousand " else r2
      let ip3 := if ip2 ≥ 1000 then ip2 % 1000 else ip2
      let r4 := if ip3 > 0 then r3 ++ convertGroup ip3 else r3
      let r5 := jsTrim r4 ++ " Dollars"
      if cents > 0 then r5 ++ " And " ++ convertGroup cents ++ " Cents" else r5 ++ " Only"

/-! ## Locale-formatted numeral renderer (`formatCurrency`) -/

/-- Insert a comma after every three characters of a reversed digit list
(models the `en-US` thousands grouping of `toLocaleString`). -/
def group3 : List Char → List Char
  | a :: b :: c :: d :: rest => a :: b :: c :: ',' :: group3 (d :: rest)
  | l => l

def pad2 (n : Nat) : String := if n < 10 then "0" ++ toString n else toString n

/-- `formatCurrency` from the source: on `NaN` return the original string
unchanged, otherwise the `en-US` grouped form with two decimals. -/
def formatCurrency (p : Option (Nat × Nat)) (orig : String) : String :=
  match p with
  | none => orig
  | some (ip, cents) =>
    String.mk (group3 (toString ip).toList.reverse).reverse ++ "." ++ pad2 cents

/-! ## Traditional-Chinese currency converter (`numberToChinese`)

The converter is embedded over `List Char` so that the final regex
cleanup (`replace(/零+/g,'零').replace(/零圓/,'圓').replace(/^圓/,'零圓')`)
can be reasoned about structurally.  Out-of-range table accesses mirror
JS indexing, which concatenates the string `"undefined"`. -/

def undefChars : List Char := "undefined".toList

def chNums : List (List Char) :=
  [['零'], ['壹'], ['貳'], ['參'], ['肆'], ['伍'], ['陸'], ['柒'], ['捌'], ['玖']]

def chUnits : List (List Char) := [[], ['拾'], ['佰'], ['仟']]

def chGroups : List (List Char) := [[], ['萬'], ['億'], ['兆']]

/-- Decimal digits of a natural number, most significant first
(`n.toFixed(2)`'s integer part; `0 ↦ [0]`). -/
def natDigitsAux : Nat → Nat → List Nat
  | 0, _ => []
  | fuel + 1, n => if n < 10 then [n] else natDigitsAux fuel (n / 10) ++ [n % 10]

def natDigits (n : Nat) : List Nat := natDigitsAux (n + 1) n

/-- Split a least-significant-first digit list into the 4-digit chunks the
source loop `for (let i = len; i > 0; i -= 4)` iterates over; each chunk is
returned most-significant-digit first, chunks least-significant first. -/
def chunksLsfAux : Nat → List Nat → List (List Nat)
  | _, [] => []
  | 0, _ => []
  | fuel + 1, a :: rest => ((a :: rest).take 4).reverse :: chunksLsfAux fuel (rest.drop 3)

def intChunks (intDigits : List Nat) : List (List Nat) :=
  chunksLsfAux intDigits.reverse.length intDigits.reverse

/-- Inner chunk loop of the source: each pair is (digit, unit index);
`chunkZero` counts zero digits pending before the next nonzero digit. -/
def chunkRenderAux (chunkZero : Nat) : List (Nat × Nat) → List Char
  | [] => []
  | (d, u) :: rest =>
    if d ≠ 0 then
      (if chunkZero > 0 then ['零'] else []) ++ chNums.getD d undefChars
        ++ chUnits.getD u undefChars ++ chunkRenderAux 0 rest
    else
      chunkRenderAux (chunkZero + 1) rest

/-- Pair each digit with its unit index `chunk.length - 1 - j`, i.e. the
number of digits after it. -/
def pairsOf : List Nat → List (Nat × Nat)
  | [] => []
  | d :: rest => (d, rest.length) :: pairsOf rest

def chunkRender (chunk : List Nat) : List Char :=
  chunkRenderAux 0 (pairsOf chunk)

/-- Outer chunk loop of the source over the least-significant-first chunk
list, carrying the accumulated `result`, the pending `zeroCount` and the
group index; `first` records whether this is the first iteration
(`i === len`). -/
def intLoopAux : List (List Nat) → Nat → List Char → Nat → Bool → List Char
  | [], _, result, _, _ => result
  | c :: rest, groupIndex, result, zeroCount, first =>
    if digitsToNat c = 0 then
      let zc := if result ≠ [] ∧ first = false then zeroCount + 1 else zeroCount
      intLoopAux rest (groupIndex + 1) result zc false
    else
      let groupResult := chunkRender c
      let r1 := groupResult ++ chGroups.getD groupIndex undefChars ++ result
      let r2 := if zeroCount > 0 then '零' :: r1 else r1
      intLoopAux rest (groupIndex + 1) r2 (if zeroCount > 0 then 0 else zeroCount) false

/-- Rendering of the integer part before cleanup (the loop plus the
`if (result === '') result = CH_NUMS[0]` normalisation and the `圓`). -/
def intYuanRaw (ip : Nat) : List Char :=
  let r := intLoopAux (intChunks (natDigits ip)) 0 [] 0 true
  (if r = [] then ['零'] else r) ++ ['圓']

/-- Decimal-part suffix exactly as built by the source's `if`/`else`
ladder on `jiao` and `fen`. -/
def decSuffixRaw (jiao fen : Nat) : List Char :=
  if jiao = 0 ∧ fen = 0 then ['整']
  else
    (if jiao > 0 then chNums.getD jiao undefChars ++ ['角']
     else if jiao = 0 ∧ fen > 0 then ['零'] else [])
      ++ (if fen > 0 then chNums.getD fen undefChars ++ ['分'] else [])

/-- Models `replace(/零+/g, '零')`: collapse every run of `零` to one. -/
def collapseZeros : List Char → List Char
  | [] => []
  | a :: rest =>
    if a = '零' ∧ (collapseZeros rest).head? = some '零' then collapseZeros rest
    else a :: collapseZeros rest

/-- Models `replace(/零圓/, '圓')`: drop the `零` of the leftmost `零圓`. -/
def replZeroYuan : List Char → List Char
  | [] => []
  | a :: rest =>
    if a = '零' ∧ rest.head? = some '圓' then rest else a :: replZeroYuan rest

/-- Models `replace(/^圓/, '零圓')`: restore a `零` before a leading `圓`. -/
def fixLeadYuan (l : List Char) : List Char :=
  match l with
  | a :: rest => if a = '圓' then '零' :: a :: rest else a :: rest
  | [] => []

def cleanupChinese (l : List Char) : List Char :=
  fixLeadYuan (replZeroYuan (collapseZeros l))

/-- `numberToChinese` from the source, on the parse result (`none` = the
`NaN` early return). -/
def numberToChinese (amount : Option (Nat × Nat)) : String :=
  match amount with
  | none => "零圓整"
  | some (ip, cents) =>
    String.mk (cleanupChinese (intYuanRaw ip ++ decSuffixRaw (cents / 10) (cents % 10)))

/-- The integer part (with its `圓`) of the converter's output, after the
same cleanup pipeline. -/
def chineseIntYuan (ip : Nat) : String := String.mk (cleanupChinese (intYuanRaw ip))

/-- Modelled from the claim's wording (C7): the decimal-part suffix — `整`
when both digits are zero, a zero-glyph then the fen digit and `分` when
only jiao is zero, otherwise the jiao digit with `角` followed, when fen
is nonzero, by the fen digit with `分`. -/
def decSuffixSpec (jiao fen : Nat) : List Char :=
  if jiao = 0 ∧ fen = 0 then ['整']
  else if jiao = 0 then '零' :: chNums.getD fen undefChars ++ ['分']
  else chNums.getD jiao undefChars ++ ['角']
        ++ (if fen ≠ 0 then chNums.getD fen undefChars ++ ['分'] else [])

/-- Modelled from the claim's wording (C2, within-chunk rule): walk the
chunk most-significant digit first, emitting one zero-glyph before a
nonzero digit whose preceding digit(s) are zero. -/
def chunkSpecAux (prevZero : Bool) : List Nat → List Char
  | [] => []
  | d :: rest =>
    if d ≠ 0 then
      (if prevZero then ['零'] else []) ++ chNums.getD d undefChars
        ++ chUnits.getD rest.length undefChars ++ chunkSpecAux false rest
    else chunkSpecAux true rest

/-- No two consecutive zero-glyphs. -/
def NoDoubleZero (l : List Char) : Prop :=
  l.Chain' (fun a b => ¬(a = '零' ∧ b = '零'))

instance (l : List Char) : Decidable (NoDoubleZero l) :=
  inferInstanceAs (Decidable (l.Chain' (fun a b => ¬(a = '零' ∧ b = '零'))))

/-! ## Date formatter (`formatDate`) -/

structure JSDate where
  year : Nat
  month : Nat
  day : Nat
  deriving DecidableEq, Repr

def MONTH_NAMES : List String :=
  ["January", "February", "March", "April", "May", "June", "July",
   "August", "September", "October", "November", "December"]

/-- `formatDate` from the source; the `DD Month YYYY` branch models
`toLocaleDateString('en-US', \x7bday, month, year\x7d)`. -/
def formatDate (date : JSDate) (formatStr : String) : String :=
  let yyyy := toString date.year
  let mm := pad2 date.month
  let dd := pad2 date.day
  if formatStr = "YYYY-MM-DD" then yyyy ++ "-" ++ mm ++ "-" ++ dd
  else if formatStr = "DD/MM/YYYY" then dd ++ "/" ++ mm ++ "/" ++ yyyy
  else if formatStr = "MM/DD/YYYY" then mm ++ "/" ++ dd ++ "/" ++ yyyy
  else if formatStr = "DD Month YYYY" then
    MONTH_NAMES.getD (date.month - 1) "" ++ " " ++ toString date.day ++ ", " ++ yyyy
  else yyyy ++ "-" ++ mm ++ "-" ++ dd

/-! ## Resolution pipeline

The recompute effect in `EditorPage` maps every text object through the
`switch (obj.logicType)` below.  Optional string fields (`variableKey`,
`rawValue`, `dateFormat`) are modelled as `String` with `""` standing for
`undefined`, which is faithful because the source only ever reads them
through JS truthiness or `|| default`.  The print-time bindings map
`printValues : Record<string, string>` is modelled as
`String → Option String` (`none` = key absent). -/

inductive LogicType where
  | STATIC
  | VARIABLE
  | DATE
  | CURRENCY_ENG
  | CURRENCY_CHI
  | CURRENCY_NUM
  | CUSTOMER_NAME
  deriving DecidableEq, Repr

/-- `effectiveValue` from the source:
`(obj.variableKey && printValues[k] !== undefined && printValues[k] !== '')
 ? printValues[k] : obj.rawValue || ''`. -/
def effectiveValue (vk raw : String) (pv : String → Option String) : String :=
  if vk ≠ "" ∧ (pv vk).getD "" ≠ "" then (pv vk).getD "" else raw

/-- The `switch (obj.logicType)` computing `newText` for a text object.
The `VARIABLE` branch keeps the source's two consecutive assignments. -/
def resolveText (lt : LogicType) (vk raw : String) (pv : String → Option String)
    (now : JSDate) (dateFormat : String) : String :=
  let eff := effectiveValue vk raw pv
  match lt with
  | .DATE => formatDate now (if dateFormat = "" then "YYYY-MM-DD" else dateFormat)
  | .CURRENCY_ENG => numberToEnglish (parseFix2 eff)
  | .CURRENCY_CHI => numberToChinese (parseFix2 eff)
  | .CURRENCY_NUM => formatCurrency (parseFix2 eff) eff
  | .VARIABLE =>
    let t1 := if vk ≠ "" ∧ (pv vk).getD "" ≠ "" then eff
              else "\x7b\x7b" ++ (if vk = "" then "var" else vk) ++ "\x7d\x7d"
    if vk ≠ "" ∧ (pv vk).isSome then eff else t1
  | .CUSTOMER_NAME => eff
  | .STATIC => eff

/-! ## Document model -/

inductive ObjKind where
  | text
  | image
  deriving DecidableEq, Repr

inductive Align where
  | left
  | center
  | right
  deriving DecidableEq, Repr

/-- `CanvasObject` from `types.ts`; JS numbers are modelled by `ℚ` and
optional fields by `Option`. -/
structure CanvasObject where
  id : String
  kind : ObjKind
  x : ℚ
  y : ℚ
  width : ℚ
  height : Option ℚ := none
  text : Option String := none
  rawValue : Option String := none
  src : Option String := none
  variableKey : Option String := none
  fontSize : Option ℚ := none
  fontFamily : Option String := none
  align : Option Align := none
  logicType : Option LogicType := none
  dateFormat : Option String := none
  opacity : Option ℚ := none
  deriving DecidableEq, Repr

/-- `handleDeleteObject`: `objects.filter(o => o.id !== objId)`. -/
def handleDeleteObject (objects : List CanvasObject) (objId : String) :
    List CanvasObject :=
  objects.filter (fun o => o.id ≠ objId)

/-- A concrete text object, as built by `handleAddText`, used in witnesses. -/
def sampleObj : CanvasObject :=
  { id := "a", kind := .text, x := 50, y := 50, width := 200,
    text := some "Text", rawValue := some "Text", fontSize := some 16,
    fontFamily := some "Arial", align := some .left, logicType := some .STATIC }

/-! ## History manager

`EditorPage` keeps `objects`, `history : CanvasObject[][]` and
`historyIndex`; snapshots are generalised to an arbitrary type `α`. -/

structure ES (α : Type) where
  objects : α
  history : List α
  historyIndex : Nat
  deriving DecidableEq, Repr

/-- The single-snapshot state installed when a template is loaded or a new
one is created (`setHistory([objs]); setHistoryIndex(0)`). -/
def initES {α : Type} (objs : α) : ES α :=
  { objects := objs, history := [objs], historyIndex := 0 }

/-- `saveToHistory`: drop the redo branch, append, cap at 50 by shifting
the oldest snapshot, and advance the index (capped at 49). -/
def saveToHistory {α : Type} (st : ES α) (newObjects : α) : ES α :=
  let newHistory := st.history.take (st.historyIndex + 1) ++ [newObjects]
  let newHistory := if newHistory.length > 50 then newHistory.drop 1 else newHistory
  { st with history := newHistory, historyIndex := min (st.historyIndex + 1) 49 }

/-- `updateObjects` with `recordHistory = true`: set the live collection
and record it. -/
def updateObjects {α : Type} (st : ES α) (newObjs : α) : ES α :=
  { saveToHistory st newObjs with objects := newObjs }

/-- `handleUndo`: no-op at index 0. -/
def undo {α : Type} (st : ES α) : ES α :=
  if st.historyIndex > 0 then
    { st with historyIndex := st.historyIndex - 1,
              objects := st.history.getD (st.historyIndex - 1) st.objects }
  else st

/-- `handleRedo`: no-op at the last index. -/
def redo {α : Type} (st : ES α) : ES α :=
  if st.historyIndex < st.history.length - 1 then
    { st with historyIndex := st.historyIndex + 1,
              objects := st.history.getD (st.historyIndex + 1) st.objects }
  else st

def recordAll {α : Type} (st : ES α) (snaps : List α) : ES α :=
  snaps.foldl updateObjects st

def undoTimes {α : Type} : Nat → ES α → ES α
  | 0, st => st
  | n + 1, st => undoTimes n (undo st)

/-- Editor-state invariant: the snapshot at the current index is the live
collection, and the history respects the cap. -/
def Wf {α : Type} (st : ES α) : Prop :=
  st.history.get? st.historyIndex = some st.objects ∧ st.history.length ≤ 50

instance {α : Type} [DecidableEq α] (st : ES α) : Decidable (Wf st) :=
  inferInstanceAs
    (Decidable (st.history.get? st.historyIndex = some st.objects ∧ st.history.length ≤ 50))

/-! ## Structural lemmas about the cleanup pipeline -/

lemma collapseZeros_ne_nil : ∀ {l : List Char}, l ≠ [] → collapseZeros l ≠ [] := by
  intro l h
  cases l with
  | nil => exact absurd rfl h
  | cons a rest =>
    rw [collapseZeros]
    split
    · next hc =>
      intro hnil
      rw [hnil] at hc
      simp at hc
    · simp

lemma collapseZeros_append : ∀ (l1 l2 : List Char), l1.getLast? ≠ some '零' →
    collapseZeros (l1 ++ l2) = collapseZeros l1 ++ collapseZeros l2 := by
  intro l1
  induction l1 with
  | nil => intro l2 _; simp [collapseZeros]
  | cons a t ih =>
    intro l2 h
    cases t with
    | nil =>
      have ha : a ≠ '零' := by
        intro hh
        exact h (by simp [hh])
      simp [collapseZeros, ha]
    | cons b t2 =>
      have h' : (b :: t2).getLast? ≠ some '零' := by
        rwa [List.getLast?_cons_cons] at h
      have ih' := ih l2 h'
      have hne : collapseZeros (b :: t2) ≠ [] := collapseZeros_ne_nil (by simp)
      have hh : (collapseZeros (b :: t2) ++ collapseZeros l2).head?
          = (collapseZeros (b :: t2)).head? := by
        cases hcz : collapseZeros (b :: t2) with
        | nil => exact absurd hcz hne
        | cons c u => simp
      show collapseZeros (a :: ((b :: t2) ++ l2)) = _
      rw [collapseZeros, collapseZeros, ih', hh]
      split <;> simp

lemma mem_of_mem_collapseZeros : ∀ {c : Char} {l : List Char},
    c ∈ collapseZeros l → c ∈ l := by
  intro c l
  induction l with
  | nil => simp [collapseZeros]
  | cons a t ih =>
    rw [collapseZeros]
    split
    · intro h
      exact List.mem_cons_of_mem a (ih h)
    · intro h
      rcases List.mem_cons.mp h with h | h
      · exact h ▸ List.mem_cons_self a t
      · exact List.mem_cons_of_mem a (ih h)

lemma replZeroYuan_of_not_mem : ∀ {l : List Char}, '圓' ∉ l → replZeroYuan l = l := by
  intro l h
  induction l with
  | nil => rfl
  | cons a t ih =>
    rw [replZeroYuan]
    have ht : '圓' ∉ t := fun hm => h (List.mem_cons_of_mem a hm)
    split
    · next hc =>
      exfalso
      cases t with
      | nil => simp at hc
      | cons b t2 =>
        have : b = '圓' := by simpa using hc.2
        exact ht (this ▸ List.mem_cons_self b t2)
    · rw [ih ht]

lemma replZeroYuan_append : ∀ (l1 l2 : List Char), '圓' ∉ l2 →
    replZeroYuan (l1 ++ l2) = replZeroYuan l1 ++ l2 := by
  intro l1
  induction l1 with
  | nil =>
    intro l2 h
    simpa using replZeroYuan_of_not_mem h
  | cons a t ih =>
    intro l2 h
    cases t with
    | nil =>
      have hhd : l2.head? ≠ some '圓' := by
        cases l2 with
        | nil => simp
        | cons b u =>
          simp only [List.head?_cons]
          intro hb
          have hb' : b = '圓' := by injection hb
          rw [hb'] at h
          exact h (List.mem_cons_self '圓' u)
      show replZeroYuan (a :: l2) = replZeroYuan [a] ++ l2
      rw [replZeroYuan]
      split
      · next hc => exact absurd hc.2 hhd
      · rw [replZeroYuan_of_not_mem h]
        simp [replZeroYuan]
    | cons b t2 =>
      show replZeroYuan (a :: ((b :: t2) ++ l2)) = replZeroYuan (a :: b :: t2) ++ l2
      rw [replZeroYuan, replZeroYuan]
      simp only [List.cons_append, List.head?_cons]
      split
      · simp
      · have hih := ih l2 h
        rw [List.cons_append] at hih
        rw [hih]
        simp

lemma replZeroYuan_ne_nil : ∀ {l : List Char}, l ≠ [] → replZeroYuan l ≠ [] := by
  intro l h
  cases l with
  | nil => exact absurd rfl h
  | cons a t =>
    rw [replZeroYuan]
    split
    · next hc =>
      intro hnil
      rw [hnil] at hc
      simp at hc
    · simp

lemma fixLeadYuan_append : ∀ (l1 l2 : List Char), l1 ≠ [] →
    fixLeadYuan (l1 ++ l2) = fixLeadYuan l1 ++ l2 := by
  intro l1 l2 h
  cases l1 with
  | nil => exact absurd rfl h
  | cons a t =>
    show fixLeadYuan (a :: (t ++ l2)) = fixLeadYuan (a :: t) ++ l2
    rw [fixLeadYuan, fixLeadYuan]
    split <;> simp

lemma cleanupChinese_append (l1 l2 : List Char) (h1 : l1 ≠ [])
    (h2 : l1.getLast? = some '圓') (h3 : '圓' ∉ l2) :
    cleanupChinese (l1 ++ l2) = cleanupChinese l1 ++ collapseZeros l2 := by
  unfold cleanupChinese
  have hz : l1.getLast? ≠ some '零' := by
    rw [h2]
    simp
  rw [collapseZeros_append l1 l2 hz]
  have h3' : '圓' ∉ collapseZeros l2 := fun hc => h3 (mem_of_mem_collapseZeros hc)
  rw [replZeroYuan_append _ _ h3']
  exact fixLeadYuan_append _ _ (replZeroYuan_ne_nil (collapseZeros_ne_nil h1))

lemma noDoubleZero_collapseZeros : ∀ (l : List Char), NoDoubleZero (collapseZeros l) := by
  intro l
  induction l with
  | nil => exact List.chain'_nil
  | cons a t ih =>
    rw [NoDoubleZero, collapseZeros]
    split
    · exact ih
    · next hc =>
      rw [List.chain'_cons']
      refine ⟨?_, ih⟩
      intro y hy hay
      apply hc
      refine ⟨hay.1, ?_⟩
      rw [Option.mem_def] at hy
      rw [hy, hay.2]

lemma replZeroYuan_head? : ∀ (l : List Char),
    (replZeroYuan l).head? = l.head? ∨ (replZeroYuan l).head? = some '圓' := by
  intro l
  cases l with
  | nil => exact Or.inl rfl
  | cons a t =>
    rw [replZeroYuan]
    split
    · next hc => exact Or.inr hc.2
    · exact Or.inl rfl

lemma noDoubleZero_replZeroYuan : ∀ {l : List Char},
    NoDoubleZero l → NoDoubleZero (replZeroYuan l) := by
  intro l
  induction l with
  | nil => intro h; exact List.chain'_nil
  | cons a t ih =>
    intro h
    rw [NoDoubleZero] at h ⊢
    rw [List.chain'_cons'] at h
    rw [replZeroYuan]
    split
    · exact h.2
    · rw [List.chain'_cons']
      refine ⟨?_, ih h.2⟩
      intro y hy hay
      rw [Option.mem_def] at hy
      rcases replZeroYuan_head? t with hh | hh
      · refine h.1 y ?_ hay
        rw [Option.mem_def, ← hh, hy]
      · rw [hy] at hh
        have hy' : y = '圓' := by
          injection hh
        rw [hy'] at hay
        exact absurd hay.2 (by decide)

lemma noDoubleZero_fixLeadYuan : ∀ {l : List Char},
    NoDoubleZero l → NoDoubleZero (fixLeadYuan l) := by
  intro l h
  cases l with
  | nil => exact h
  | cons a t =>
    rw [fixLeadYuan]
    split
    · next ha =>
      rw [NoDoubleZero, List.chain'_cons]
      exact ⟨by simp [ha], h⟩
    · exact h

lemma noDoubleZero_cleanupChinese (l : List Char) : NoDoubleZero (cleanupChinese l) :=
  noDoubleZero_fixLeadYuan (noDoubleZero_replZeroYuan (noDoubleZero_collapseZeros l))

/-! ## Lemmas about the integer-part loop -/

lemma chunkRenderAux_eq_chunkSpecAux : ∀ (chunk : List Nat) (cz : Nat),
    chunkRenderAux cz (pairsOf chunk) = chunkSpecAux (decide (cz > 0)) chunk := by
  intro chunk
  induction chunk with
  | nil => intro cz; rfl
  | cons d rest ih =>
    intro cz
    rw [pairsOf, chunkRenderAux, chunkSpecAux]
    by_cases hd : d = 0
    · subst hd
      simp [ih (cz + 1)]
    · rw [if_pos hd, if_pos hd, ih 0]
      by_cases hcz : cz > 0 <;> simp [hcz]

lemma digitsToNat_all_zero : ∀ {l : List Nat}, (∀ d ∈ l, d = 0) → digitsToNat l = 0 := by
  have aux : ∀ (l : List Nat), (∀ d ∈ l, d = 0) → ∀ a, a = 0 →
      l.foldl (fun a d => a * 10 + d) a = 0 := by
    intro l
    induction l with
    | nil => intro _ a ha; simpa using ha
    | cons d rest ih =>
      intro h a ha
      rw [List.foldl_cons]
      exact ih (fun x hx => h x (List.mem_cons_of_mem d hx))
        _ (by rw [ha, h d (List.mem_cons_self d rest)])
  intro l h
  exact aux l h 0 rfl

lemma chunkRender_ne_nil : ∀ {chunk : List Nat}, digitsToNat chunk ≠ 0 →
    chunkRender chunk ≠ [] := by
  have aux : ∀ (chunk : List Nat) (cz : Nat), (∃ d ∈ chunk, d ≠ 0) →
      chunkRenderAux cz (pairsOf chunk) ≠ [] := by
    intro chunk
    induction chunk with
    | nil => intro cz h; simp at h
    | cons d rest ih =>
      intro cz h
      rw [pairsOf, chunkRenderAux]
      by_cases hd : d = 0
      · rw [if_neg (by simp [hd])]
        apply ih
        rcases h with ⟨x, hx, hxne⟩
        rcases List.mem_cons.mp hx with hh | hh
        · exact absurd (hh ▸ hd) (hh ▸ hxne)
        · exact ⟨x, hh, hxne⟩
      · rw [if_pos hd]
        intro hnil
        rcases List.append_eq_nil.mp
          (List.append_eq_nil.mp (List.append_eq_nil.mp hnil).1).1 with ⟨_, h2⟩
        have hnum : chNums.getD d undefChars ≠ [] := by
          rcases lt_or_ge d 10 with hlt | hge
          · interval_cases d <;> simp [chNums]
          · have : chNums.getD d undefChars = undefChars := by
              apply List.getD_eq_default
              simp only [chNums, List.length_cons, List.length_nil]
              omega
            rw [this]
            simp [undefChars]
        exact hnum h2
  intro chunk h
  apply aux chunk 0
  by_contra hc
  push_neg at hc
  exact h (digitsToNat_all_zero hc)

/-- The bridging zero of an all-zero middle chunk is prepended to the
front of the whole accumulated string when the next more-significant
nonzero chunk is processed. -/
lemma intLoop_bridging (a z b : List Nat) (ha : digitsToNat a ≠ 0)
    (hb : digitsToNat b ≠ 0) (hz : digitsToNat z = 0) :
    intLoopAux [b, z, a] 0 [] 0 true
      = '零' :: (chunkRender a ++ ['億'] ++ chunkRender b) := by
  have hbne := chunkRender_ne_nil hb
  simp only [intLoopAux, chGroups]
  simp [hb, hz, ha, hbne]

/-! ## Claims -/

/-! ## History-manager lemmas -/

lemma wf_index_lt {α : Type} {st : ES α} (h : Wf st) :
    st.historyIndex < st.history.length := by
  rcases List.get?_eq_some.mp h.1 with ⟨hlt, _⟩
  exact hlt

lemma wf_objects_eq {α : Type} {st : ES α} (h : Wf st) {x : α}
    (hx : st.history.get? st.historyIndex = some x) : st.objects = x := by
  have hh := h.1.symm.trans hx
  injection hh

lemma undo_spec {α : Type} {st : ES α} (h : Wf st) :
    (undo st).history = st.history
    ∧ (undo st).historyIndex = st.historyIndex - 1
    ∧ Wf (undo st) := by
  unfold undo
  by_cases hpos : st.historyIndex > 0
  · rw [if_pos hpos]
    have hlt : st.historyIndex - 1 < st.history.length := by
      have := wf_index_lt h
      omega
    have h1 : st.history.get? (st.historyIndex - 1)
        = some (st.history.getD (st.historyIndex - 1) st.objects) := by
      rw [List.getD_eq_getElem?_getD, List.get?_eq_getElem?, List.getElem?_eq_getElem hlt]
      rfl
    exact ⟨rfl, rfl, h1, h.2⟩
  · rw [if_neg hpos]
    refine ⟨rfl, ?_, h⟩
    omega

lemma undoTimes_spec {α : Type} : ∀ (k : Nat) (st : ES α), Wf st →
    (undoTimes k st).history = st.history
    ∧ (undoTimes k st).historyIndex = st.historyIndex - k
    ∧ Wf (undoTimes k st) := by
  intro k
  induction k with
  | zero =>
    intro st h
    exact ⟨rfl, by simp [undoTimes], h⟩
  | succ n ih =>
    intro st h
    rw [undoTimes]
    obtain ⟨h1, h2, h3⟩ := undo_spec h
    obtain ⟨g1, g2, g3⟩ := ih (undo st) h3
    refine ⟨by rw [g1, h1], ?_, g3⟩
    rw [g2, h2]
    omega

lemma updateObjects_grow {α : Type} (st : ES α) (snap : α)
    (hi : st.historyIndex + 1 = st.history.length)
    (hlen : st.history.length + 1 ≤ 50) :
    updateObjects st snap
      = ⟨snap, st.history ++ [snap], st.historyIndex + 1⟩ := by
  have h1 : st.history.take (st.historyIndex + 1) = st.history := by
    rw [hi]
    exact List.take_length _
  have h2 : ¬ (st.history ++ [snap]).length > 50 := by
    simp
    omega
  have h3 : min (st.historyIndex + 1) 49 = st.historyIndex + 1 := by
    omega
  unfold updateObjects saveToHistory
  dsimp only
  rw [h1, if_neg h2, h3]

lemma recordAll_grow {α : Type} : ∀ (snaps : List α) (st : ES α),
    st.historyIndex + 1 = st.history.length →
    st.history.length + snaps.length ≤ 50 →
    recordAll st snaps
      = ⟨snaps.getLastD st.objects, st.history ++ snaps,
         st.historyIndex + snaps.length⟩ := by
  intro snaps
  induction snaps with
  | nil =>
    intro st hi hlen
    simp [recordAll]
  | cons s rest ih =>
    intro st hi hlen
    have hlen' : st.history.length + 1 ≤ 50 := by
      simp at hlen
      omega
    have hstep := updateObjects_grow st s hi hlen'
    show recordAll (updateObjects st s) rest = _
    rw [hstep]
    rw [ih ⟨s, st.history ++ [s], st.historyIndex + 1⟩ (by simp; omega)
      (by simp at hlen ⊢; omega)]
    rw [ES.mk.injEq]
    refine ⟨?_, ?_, ?_⟩
    · rw [List.getLastD_cons]
    · dsimp only
      rw [← List.append_cons]
    · dsimp only
      rw [List.length_cons]
      omega

lemma updateObjects_sat {α : Type} (st : ES α) (snap : α)
    (hlen : st.history.length = 50) (hi : st.historyIndex = 49) :
    updateObjects st snap = ⟨snap, (st.history ++ [snap]).drop 1, 49⟩ := by
  have h1 : st.history.take (st.historyIndex + 1) = st.history := by
    apply List.take_of_length_le
    omega
  have h2 : (st.history ++ [snap]).length > 50 := by
    simp [hlen]
  have h3 : min (st.historyIndex + 1) 49 = 49 := by
    omega
  unfold updateObjects saveToHistory
  dsimp only
  rw [h1, if_pos h2, h3]

lemma recordAll_sat {α : Type} : ∀ (snaps : List α) (st : ES α),
    st.history.length = 50 → st.historyIndex = 49 →
    recordAll st snaps
      = ⟨snaps.getLastD st.objects, (st.history ++ snaps).drop snaps.length, 49⟩ := by
  intro snaps
  induction snaps with
  | nil =>
    intro st hlen hi
    simp [recordAll, ← hi]
  | cons s rest ih =>
    intro st hlen hi
    have hstep := updateObjects_sat st s hlen hi
    show recordAll (updateObjects st s) rest = _
    rw [hstep]
    rw [ih ⟨s, (st.history ++ [s]).drop 1, 49⟩ (by simp [hlen]) rfl]
    simp only [List.getLastD_cons]
    have hX : (st.history ++ [s]).drop 1 ++ rest
        = ((st.history ++ [s]) ++ rest).drop 1 :=
      (List.drop_append_of_le_length (by simp)).symm
    rw [hX, List.drop_drop, ← List.append_cons]
    have hlen2 : 1 + rest.length = (s :: rest).length := by
      rw [List.length_cons]
      omega
    rw [hlen2]

lemma get?_cons_length {α : Type} : ∀ (snaps : List α) (s0 : α),
    (s0 :: snaps).get? snaps.length = some (snaps.getLastD s0) := by
  intro snaps
  induction snaps with
  | nil => intro s0; rfl
  | cons a t ih =>
    intro s0
    show (a :: t).get? t.length = some ((a :: t).getLastD s0)
    rw [List.getLastD_cons]
    exact ih a

lemma getLastD_append {α : Type} : ∀ (l1 l2 : List α) (d : α),
    (l1 ++ l2).getLastD d = l2.getLastD (l1.getLastD d) := by
  intro l1
  induction l1 with
  | nil => intro l2 d; rfl
  | cons a t ih =>
    intro l2 d
    show (a :: (t ++ l2)).getLastD d = l2.getLastD ((a :: t).getLastD d)
    rw [List.getLastD_cons, List.getLastD_cons, ih]

lemma record_after_undo {α : Type} (st : ES α) (snap : α) (h : Wf st) :
    redo (updateObjects st snap) = updateObjects st snap
    ∧ ∀ x ∈ (updateObjects st snap).history,
        x ∈ st.history.take (st.historyIndex + 1) ∨ x = snap := by
  have hlt := wf_index_lt h
  have hle : st.historyIndex + 1 ≤ st.history.length := hlt
  have htake : (st.history.take (st.historyIndex + 1)).length
      = st.historyIndex + 1 := by
    rw [List.length_take]
    omega
  constructor
  · unfold updateObjects saveToHistory redo
    dsimp only
    by_cases hcap : (st.history.take (st.historyIndex + 1) ++ [snap]).length > 50
    · rw [if_pos hcap]
      have hi49 : st.historyIndex = 49 := by
        rw [List.length_append, htake] at hcap
        have hcap50 := h.2
        simp at hcap
        omega
      have hcond : ¬ (min (st.historyIndex + 1) 49
          < (List.drop 1 (st.history.take (st.historyIndex + 1) ++ [snap])).length - 1) := by
        rw [List.length_drop, List.length_append, htake, hi49]
        simp
      rw [if_neg hcond]
    · rw [if_neg hcap]
      have hi49 : st.historyIndex + 1 ≤ 49 := by
        rw [List.length_append, htake] at hcap
        simp at hcap
        omega
      have hcond : ¬ (min (st.historyIndex + 1) 49
          < (st.history.take (st.historyIndex + 1) ++ [snap]).length - 1) := by
        rw [List.length_append, htake]
        simp
        omega
      rw [if_neg hcond]
  · intro x hx
    unfold updateObjects saveToHistory at hx
    dsimp only at hx
    by_cases hcap : (st.history.take (st.historyIndex + 1) ++ [snap]).length > 50
    · rw [if_pos hcap] at hx
      have hx' := List.mem_of_mem_drop hx
      rcases List.mem_append.mp hx' with hmem | hmem
      · exact Or.inl hmem
      · exact Or.inr (by simpa using hmem)
    · rw [if_neg hcap] at hx
      rcases List.mem_append.mp hx with hmem | hmem
      · exact Or.inl hmem
      · exact Or.inr (by simpa using hmem)

lemma redo_after_undo {α : Type} {st : ES α} (h : Wf st)
    (hpos : 0 < st.historyIndex) : redo (undo st) = st := by
  obtain ⟨obj, hist, idx⟩ := st
  unfold Wf at h
  dsimp only at h hpos
  obtain ⟨hget, hlen⟩ := h
  have hlt : idx < hist.length := by
    rcases List.get?_eq_some.mp hget with ⟨hl, _⟩
    exact hl
  unfold undo redo
  dsimp only
  rw [if_pos hpos]
  dsimp only
  rw [if_pos (show idx - 1 < hist.length - 1 by omega)]
  have hidx : idx - 1 + 1 = idx := by omega
  have hobj : hist.getD (idx - 1 + 1) (hist.getD (idx - 1) obj) = obj := by
    rw [hidx, List.getD_eq_getElem?_getD]
    rw [← List.get?_eq_getElem?, hget]
    rfl
  rw [ES.mk.injEq]
  exact ⟨hobj, rfl, hidx⟩

/-- C1 (counterexample): the claim "key present with an *empty* bound
value resolves to the placeholder" is false: with `variableKey = "k"`,
`bindings = \x7bk ↦ ""\x7d` and `rawValue = "hello"`, the second
assignment of the `VARIABLE` branch overrides the placeholder with the
effective value, which falls back to `rawValue`. -/
theorem c1_counterexample :
    resolveText .VARIABLE "k" "hello" (fun s => if s = "k" then some "" else none)
        ⟨2026, 1, 1⟩ "" = "hello"
    ∧ "hello" ≠ "\x7b\x7bk\x7d\x7d" := by
  constructor
  · rfl
  · decide

/-- C1 (amended): for a `Variable` field, a key bound to a non-empty value
resolves to that value; an unset key or an absent binding resolves to the
placeholder `\x7b\x7bvariableKey or var\x7d\x7d`; a key bound to the
*empty* string resolves to `rawValue` (so clearing a binding by deleting
its key reverts to the placeholder, while clearing it to `""` shows
`rawValue`). -/
theorem c1_theorem (vk raw : String) (pv : String → Option String)
    (now : JSDate) (fmt : String) :
    resolveText .VARIABLE vk raw pv now fmt =
      (if vk = "" then "\x7b\x7bvar\x7d\x7d"
       else match pv vk with
         | none => "\x7b\x7b" ++ vk ++ "\x7d\x7d"
         | some v => if v = "" then raw else v) := by
  unfold resolveText effectiveValue
  by_cases hvk : vk = ""
  · subst hvk; simp
  · cases hpv : pv vk with
    | none => simp [hvk, hpv]
    | some v =>
      by_cases hv : v = ""
      · subst hv; simp [hvk, hpv]
      · simp [hvk, hpv, hv]

lemma mk_append (l1 l2 : List Char) :
    String.mk l1 ++ String.mk l2 = String.mk (l1 ++ l2) := rfl

lemma decSuffixRaw_eq_spec (jiao fen : Nat) :
    decSuffixRaw jiao fen = decSuffixSpec jiao fen := by
  by_cases hj : jiao = 0 <;> by_cases hf : fen = 0 <;>
    simp [decSuffixRaw, decSuffixSpec, hj, hf, Nat.pos_of_ne_zero]

lemma decSuffixRaw_facts (jiao fen : Nat) (hj : jiao < 10) (hf : fen < 10) :
    '圓' ∉ decSuffixRaw jiao fen
    ∧ collapseZeros (decSuffixRaw jiao fen) = decSuffixRaw jiao fen := by
  interval_cases jiao <;> interval_cases fen <;> exact (by decide)

lemma intYuanRaw_ne_nil (ip : Nat) : intYuanRaw ip ≠ [] := by
  unfold intYuanRaw
  simp

lemma intYuanRaw_getLast (ip : Nat) : (intYuanRaw ip).getLast? = some '圓' := by
  unfold intYuanRaw
  exact List.getLast?_concat _

/-- C2 (counterexample): the converter renders 100000001 with a *leading*
zero-glyph — `零壹億零壹圓整` — so the claimed integer rendering `壹億零壹`
(and with it the claimed bridging-zero placement before the
less-significant neighbour) is wrong. -/
theorem c2_counterexample :
    numberToChinese (some (100000001, 0)) = "零壹億零壹圓整"
    ∧ chineseIntYuan 100000001 ≠ "壹億零壹圓" := by
  constructor
  · rfl
  · decide

/-- C2 (amended): within a chunk a single zero-glyph is inserted before a
nonzero digit preceded by zero digits (the claimed within-chunk rule,
via the spec-worded `chunkSpecAux`); but the bridging zero-glyph caused by
an entirely-zero middle chunk is prepended to the *front of the whole
string accumulated so far* when the next more-significant nonzero chunk
is processed — not placed before the less-significant neighbour — so the
integer part of 100000001 renders `零壹億零壹`. -/
theorem c2_theorem :
    (∀ chunk : List Nat, chunkRender chunk = chunkSpecAux false chunk)
    ∧ (∀ a z b : List Nat, digitsToNat a ≠ 0 → digitsToNat b ≠ 0 →
        digitsToNat z = 0 →
        intLoopAux [b, z, a] 0 [] 0 true
          = '零' :: (chunkRender a ++ ['億'] ++ chunkRender b))
    ∧ chineseIntYuan 100000001 = "零壹億零壹圓" := by
  refine ⟨?_, intLoop_bridging, by decide⟩
  intro chunk
  rw [chunkRender, chunkRenderAux_eq_chunkSpecAux]
  norm_num

/-- C2 witness: the bridging lemma applied to the chunks of 100000001. -/
theorem c2_witness :
    intLoopAux [[0, 0, 0, 1], [0, 0, 0, 0], [1]] 0 [] 0 true
      = '零' :: (chunkRender [1] ++ ['億'] ++ chunkRender [0, 0, 0, 1]) :=
  c2_theorem.2.1 [1] [0, 0, 0, 0] [0, 0, 0, 1] (by decide) (by decide) (by decide)

/-- C7: the decimal part of `numberToChinese` is exactly the claimed
suffix — `整` when jiao and fen are both zero, `零` + fen + `分` when only
jiao is zero, else jiao + `角` (+ fen + `分` when fen is nonzero) — and
`numberToChinese 0 = "零圓整"`. -/
theorem c7_theorem :
    (∀ ip cents, cents < 100 →
      numberToChinese (some (ip, cents))
        = chineseIntYuan ip ++ String.mk (decSuffixSpec (cents / 10) (cents % 10)))
    ∧ numberToChinese (some (0, 0)) = "零圓整" := by
  constructor
  · intro ip cents hc
    have hj : cents / 10 < 10 := Nat.div_lt_of_lt_mul (by omega)
    have hf : cents % 10 < 10 := Nat.mod_lt _ (by omega)
    obtain ⟨hmem, hcol⟩ := decSuffixRaw_facts _ _ hj hf
    show String.mk (cleanupChinese
        (intYuanRaw ip ++ decSuffixRaw (cents / 10) (cents % 10))) = _
    rw [cleanupChinese_append _ _ (intYuanRaw_ne_nil ip) (intYuanRaw_getLast ip) hmem,
      hcol, decSuffixRaw_eq_spec, mk_append]
    rfl
  · rfl

/-- C7 witness at `ip = 10000`, `cents = 7`. -/
theorem c7_witness :
    numberToChinese (some (10000, 7))
      = chineseIntYuan 10000 ++ String.mk (decSuffixSpec (7 / 10) (7 % 10)) :=
  c7_theorem.1 10000 7 (by decide)

/-- C10: for every parse outcome — `NaN` included — the converter's output
contains no two consecutive zero-glyphs: the final cleanup collapses every
run of `零` and the later replacements cannot re-create one. -/
theorem c10_theorem (amount : Option (Nat × Nat)) :
    NoDoubleZero (numberToChinese amount).toList := by
  match amount with
  | none =>
    show List.Chain' _ ['零', '圓', '整']
    exact List.chain'_cons.mpr ⟨by decide,
      List.chain'_cons.mpr ⟨by decide, List.chain'_singleton _⟩⟩
  | some (ip, cents) => exact noDoubleZero_cleanupChinese _

/-- C6: the three worked examples of `numberToEnglish`. -/
theorem c6_theorem :
    numberToEnglish (parseFix2 "0") = "Zero Dollars Only"
    ∧ numberToEnglish (parseFix2 "1234.56")
        = "One Thousand Two Hundred Thirty Four Dollars And Fifty Six Cents"
    ∧ numberToEnglish (parseFix2 "1000000") = "One Million Dollars Only" := by
  refine ⟨rfl, ?_, ?_⟩ <;> decide

/-- C8: on a string that does not parse as a number, none of the three
converters fails: `numberToEnglish` returns "Zero Dollars Only",
`numberToChinese` returns "零圓整", and `formatCurrency` passes the
original string through unchanged. -/
theorem c8_theorem (s : String) (h : parseFix2 s = none) :
    numberToEnglish (parseFix2 s) = "Zero Dollars Only"
    ∧ numberToChinese (parseFix2 s) = "零圓整"
    ∧ formatCurrency (parseFix2 s) s = s := by
  rw [h]; exact ⟨rfl, rfl, rfl⟩

/-- C8 witness at the concrete malformed input `"abc"`. -/
theorem c8_witness :
    parseFix2 "abc" = none
    ∧ (numberToEnglish (parseFix2 "abc") = "Zero Dollars Only"
       ∧ numberToChinese (parseFix2 "abc") = "零圓整"
       ∧ formatCurrency (parseFix2 "abc") "abc" = "abc") :=
  ⟨rfl, c8_theorem "abc" rfl⟩

/-- C5: for `CURRENCY_ENG` / `CURRENCY_CHI` / `CURRENCY_NUM` /
`CUSTOMER_NAME` (BoundName), resolution applies the matching converter
(no conversion for the last) to the effective value, where the effective
value is the bound value when `variableKey` is set and bound to a
non-empty string, and `rawValue` otherwise. -/
theorem c5_theorem (vk raw : String) (pv : String → Option String)
    (now : JSDate) (fmt : String) :
    (resolveText .CURRENCY_ENG vk raw pv now fmt
        = numberToEnglish (parseFix2 (effectiveValue vk raw pv)))
    ∧ (resolveText .CURRENCY_CHI vk raw pv now fmt
        = numberToChinese (parseFix2 (effectiveValue vk raw pv)))
    ∧ (resolveText .CURRENCY_NUM vk raw pv now fmt
        = formatCurrency (parseFix2 (effectiveValue vk raw pv))
            (effectiveValue vk raw pv))
    ∧ (resolveText .CUSTOMER_NAME vk raw pv now fmt = effectiveValue vk raw pv)
    ∧ (∀ v, vk ≠ "" → pv vk = some v → v ≠ "" → effectiveValue vk raw pv = v)
    ∧ ((vk = "" ∨ pv vk = none ∨ pv vk = some "") → effectiveValue vk raw pv = raw) := by
  refine ⟨rfl, rfl, rfl, rfl, ?_, ?_⟩
  · intro v hvk hpv hv
    unfold effectiveValue
    rw [hpv]
    simp [hvk, hv]
  · intro h
    unfold effectiveValue
    rcases h with h | h | h
    · simp [h]
    · rw [h]
      simp
    · rw [h]
      simp

/-- C5 witness: a bound non-empty key takes precedence; an absent key
falls back to `rawValue`. -/
theorem c5_witness :
    (resolveText .CURRENCY_ENG "k" "5" (fun s => if s = "k" then some "7" else none)
        ⟨2026, 1, 1⟩ ""
      = numberToEnglish (parseFix2
          (effectiveValue "k" "5" (fun s => if s = "k" then some "7" else none))))
    ∧ effectiveValue "k" "5" (fun s => if s = "k" then some "7" else none) = "7"
    ∧ effectiveValue "k" "5" (fun _ => none) = "5" :=
  ⟨( c5_theorem "k" "5" (fun s => if s = "k" then some "7" else none) ⟨2026, 1, 1⟩ "").1,
   ( c5_theorem "k" "5" (fun s => if s = "k" then some "7" else none)
      ⟨2026, 1, 1⟩ "").2.2.2.2.1 "7" (by decide) rfl (by decide),
   ( c5_theorem "k" "5" (fun _ => none) ⟨2026, 1, 1⟩ "").2.2.2.2.2 (Or.inr (Or.inl rfl))⟩

set_option maxRecDepth 4000 in
/-- C3 (counterexample): with the cap of 50, the 50th `record` drops the
initial snapshot, so 50 records followed by 50 undos end at the first
*recorded* snapshot (1), not the initial one (0). -/
theorem c3_counterexample :
    (undoTimes 50 (recordAll (initES (0 : Nat)) (List.range' 1 50))).objects = 1
    ∧ (1 : Nat) ≠ 0 := by
  constructor
  · decide
  · decide

/-- C3 (amended): as long as the 50-snapshot cap is not exceeded
(`N ≤ 49`), N records followed by N undos restore the initial snapshot;
a redo immediately after an effective undo restores the undone snapshot;
and a record after undos discards the whole redo branch — redo becomes a
no-op and every retained snapshot is either from the kept prefix or the
newly recorded one. -/
theorem c3_theorem {α : Type} (s0 : α) (snaps : List α) (hlen : snaps.length ≤ 49)
    (st : ES α) (hwf : Wf st) (hpos : 0 < st.historyIndex) (snap : α) :
    (undoTimes snaps.length (recordAll (initES s0) snaps)).objects = s0
    ∧ redo (undo st) = st
    ∧ (redo (updateObjects st snap) = updateObjects st snap
       ∧ ∀ x ∈ (updateObjects st snap).history,
           x ∈ st.history.take (st.historyIndex + 1) ∨ x = snap) := by
  refine ⟨?_, redo_after_undo hwf hpos, record_after_undo st snap hwf⟩
  have hrec := recordAll_grow snaps (initES s0) (by simp [initES])
    (by simp [initES]; omega)
  rw [hrec]
  dsimp only [initES]
  have hwf2 : Wf (⟨snaps.getLastD s0, [s0] ++ snaps, 0 + snaps.length⟩ : ES α) := by
    constructor
    · show (s0 :: snaps).get? (0 + snaps.length) = some (snaps.getLastD s0)
      rw [Nat.zero_add]
      exact get?_cons_length snaps s0
    · show (s0 :: snaps).length ≤ 50
      rw [List.length_cons]
      omega
  obtain ⟨g1, g2, g3⟩ := undoTimes_spec snaps.length _ hwf2
  apply wf_objects_eq g3
  rw [g1, g2]
  dsimp only
  rw [Nat.zero_add, Nat.sub_self]
  rfl

/-- C3 witness: two records and two undos restore the initial snapshot;
redo after undo and record-after-undo at a concrete mid-history state. -/
theorem c3_witness :
    (undoTimes 2 (recordAll (initES (0 : Nat)) [1, 2])).objects = 0
    ∧ redo (undo (⟨2, [0, 1, 2], 2⟩ : ES Nat)) = ⟨2, [0, 1, 2], 2⟩
    ∧ (redo (updateObjects (⟨2, [0, 1, 2], 2⟩ : ES Nat) 7)
        = updateObjects (⟨2, [0, 1, 2], 2⟩ : ES Nat) 7
       ∧ ∀ x ∈ (updateObjects (⟨2, [0, 1, 2], 2⟩ : ES Nat) 7).history,
           x ∈ (([0, 1, 2] : List Nat).take (2 + 1)) ∨ x = 7) :=
  c3_theorem 0 [1, 2] (by decide) ⟨2, [0, 1, 2], 2⟩ ⟨rfl, by decide⟩ (by decide) 7

/-- C4: recording 60 snapshots from the single-snapshot initial state
retains exactly the 50 most recent snapshots (the initial one and the 10
oldest recorded ones are dropped), and any 49-or-more undos land on the
oldest retained snapshot — the 11th recorded one — never beyond it. -/
theorem c4_theorem {α : Type} (s0 : α) (snaps : List α) (hlen : snaps.length = 60)
    (k : Nat) (hk : 49 ≤ k) :
    (recordAll (initES s0) snaps).history = snaps.drop 10
    ∧ (undoTimes k (recordAll (initES s0) snaps)).objects = snaps.getD 10 s0 := by
  have hta : (snaps.take 49).length = 49 := by
    rw [List.length_take]
    omega
  have htb : (snaps.drop 49).length = 11 := by
    rw [List.length_drop]
    omega
  have hfold : recordAll (initES s0) snaps
      = recordAll (recordAll (initES s0) (snaps.take 49)) (snaps.drop 49) := by
    show List.foldl updateObjects (initES s0) snaps = _
    rw [recordAll, recordAll, ← List.foldl_append, List.take_append_drop]
  have hstep1 := recordAll_grow (snaps.take 49) (initES s0) (by simp [initES])
    (by simp [initES, hta])
  rw [hfold, hstep1]
  dsimp only [initES]
  have hstep2 := recordAll_sat (snaps.drop 49)
    ⟨(snaps.take 49).getLastD s0, [s0] ++ snaps.take 49, 0 + (snaps.take 49).length⟩
    (by dsimp only; rw [List.length_append, hta]; rfl)
    (by dsimp only; rw [hta])
  rw [hstep2]
  dsimp only
  have hhist : (([s0] ++ snaps.take 49) ++ snaps.drop 49).drop ((snaps.drop 49).length)
      = snaps.drop 10 := by
    rw [List.append_assoc, List.take_append_drop, htb]
    show (s0 :: snaps).drop 11 = snaps.drop 10
    rw [List.drop_succ_cons]
  have hobj : (snaps.drop 49).getLastD ((snaps.take 49).getLastD s0)
      = snaps.getLastD s0 := by
    rw [← getLastD_append, List.take_append_drop]
  have hwfF : Wf (⟨(snaps.drop 49).getLastD ((snaps.take 49).getLastD s0),
      (([s0] ++ snaps.take 49) ++ snaps.drop 49).drop ((snaps.drop 49).length),
      49⟩ : ES α) := by
    constructor
    · show ((([s0] ++ snaps.take 49) ++ snaps.drop 49).drop
          ((snaps.drop 49).length)).get? 49 = _
      rw [hhist, hobj]
      have h59 : (snaps.drop 10).get? 49 = snaps.get? 59 := by
        rw [List.get?_drop]
      rw [h59]
      have h60 : snaps.get? 59 = (s0 :: snaps).get? 60 := rfl
      rw [h60, ← hlen]
      exact get?_cons_length snaps s0
    · show ((([s0] ++ snaps.take 49) ++ snaps.drop 49).drop
          ((snaps.drop 49).length)).length ≤ 50
      rw [hhist, List.length_drop]
      omega
  refine ⟨hhist, ?_⟩
  obtain ⟨g1, g2, g3⟩ := undoTimes_spec k _ hwfF
  apply wf_objects_eq g3
  rw [g1, g2]
  dsimp only
  rw [hhist]
  have hz : 49 - k = 0 := by omega
  rw [hz]
  have h10 : (10 : Nat) < snaps.length := by omega
  have hg : (snaps.drop 10).get? 0 = snaps.get? 10 := by
    rw [List.get?_drop]
  rw [hg, List.get?_eq_getElem?, List.getElem?_eq_getElem h10,
    List.getD_eq_getElem?_getD, List.getElem?_eq_getElem h10]
  rfl

/-- C4 witness with the 60 snapshots 1..60 and 50 undos. -/
theorem c4_witness :
    (recordAll (initES (0 : Nat)) (List.range' 1 60)).history
      = (List.range' 1 60).drop 10
    ∧ (undoTimes 50 (recordAll (initES (0 : Nat)) (List.range' 1 60))).objects
      = (List.range' 1 60).getD 10 0 :=
  c4_theorem 0 (List.range' 1 60) (by simp) 50 (by decide)

/-- C9: deleting an absent field id leaves the collection unchanged,
undo at history index 0 is a no-op, and redo at the last index is a
no-op. -/
theorem c9_theorem {α : Type} (objs : List CanvasObject) (objId : String)
    (habs : ∀ o ∈ objs, o.id ≠ objId)
    (st : ES α) (h0 : st.historyIndex = 0)
    (st2 : ES α) (hlast : st2.historyIndex = st2.history.length - 1) :
    handleDeleteObject objs objId = objs ∧ undo st = st ∧ redo st2 = st2 := by
  refine ⟨?_, ?_, ?_⟩
  · unfold handleDeleteObject
    rw [List.filter_eq_self]
    intro o ho
    simpa using habs o ho
  · unfold undo
    rw [if_neg (by omega : ¬ st.historyIndex > 0)]
  · unfold redo
    rw [if_neg (by omega : ¬ st2.historyIndex < st2.history.length - 1)]

/-- C9 witness: deleting the id "zzz" from a one-object collection,
undo at index 0, redo at the last index. -/
theorem c9_witness :
    handleDeleteObject [sampleObj] "zzz" = [sampleObj]
    ∧ undo (⟨5, [5], 0⟩ : ES Nat) = ⟨5, [5], 0⟩
    ∧ redo (⟨2, [1, 2], 1⟩ : ES Nat) = ⟨2, [1, 2], 1⟩ :=
  c9_theorem [sampleObj] "zzz" (by decide) ⟨5, [5], 0⟩ rfl ⟨2, [1, 2], 1⟩ rfl

end NexusPrint
